import Mathlib

/-!
Verification of the Pyjion abstract-interpreter front end (absint.h, ilgen.h)
against its natural-language specification.  The data model and operations
below are shallow embeddings of the C++ source; parts of the repository that
are only declared in the headers under analysis (absvalue.h, cowvector.h,
ipycomp.h, absint.cpp) are modelled from the specification and marked as such.
-/

/-- Modelled from the spec: the closed enumeration of abstract value kinds from
absvalue.h ("Undefined, Bool, Int, Float, Bytes, complex Object, etc."); values
are flyweights compared by identity, so a kind tag is a faithful model. -/
inductive AbstractValueKind where
  | Undefined
  | Bool
  | Int
  | Float
  | Bytes
  | Object
deriving DecidableEq, Repr

/-- Modelled from the spec: the kind-merge of absvalue.h, section 4.2 of the
spec: "if either side is Undefined, the result takes the other side's kind,
typed-Undefined only if both sides are Undefined. Otherwise, if a.kind ==
b.kind, result is that kind; otherwise the result widens to the generic Object
kind." -/
def kindMerge (a b : AbstractValueKind) : AbstractValueKind :=
  if a = AbstractValueKind.Undefined then b
  else if b = AbstractValueKind.Undefined then a
  else if a = b then a
  else AbstractValueKind.Object

/-- Modelled from the spec: AbstractValueWithSources of absvalue.h, "an
AbstractValue paired with a set of sources" plus the escaped mark; the source
type is a parameter so that the termination model can use a finite universe. -/
structure AbstractValueWithSources (σ : Type) where
  Value : AbstractValueKind
  Sources : Finset σ
  Escaped : Bool
deriving DecidableEq

/-- Modelled from the spec: the merge of AbstractValueWithSources (absvalue.h
is not in the sources): kinds merge via the lattice join, "Source sets union",
and "Escapes is monotonic (once a value has escaped on any path, it is escaped
in the merged result)". -/
def AbstractValueWithSources.merge_with {σ : Type} [DecidableEq σ]
    (a b : AbstractValueWithSources σ) : AbstractValueWithSources σ :=
  { Value := kindMerge a.Value b.Value
    Sources := a.Sources ∪ b.Sources
    Escaped := a.Escaped || b.Escaped }

/-- Modelled from the spec: the default AbstractValueWithSources (its default
constructor is in the missing absvalue.h); per the comment in absint.h lines
52-54, locals initially carry "a special typeof Undefined". -/
def AbstractValueWithSources.default (σ : Type) :
    AbstractValueWithSources σ :=
  { Value := AbstractValueKind.Undefined, Sources := ∅, Escaped := false }

/-- AbstractLocalInfo from absint.h lines 73-106: an abstract value with
sources together with the IsMaybeUndefined flag. -/
structure AbstractLocalInfo (σ : Type) where
  ValueInfo : AbstractValueWithSources σ
  IsMaybeUndefined : Bool
deriving DecidableEq

/-- The default constructor AbstractLocalInfo() from absint.h lines 79-82:
default value info and IsMaybeUndefined = true. -/
def AbstractLocalInfo.init (σ : Type) : AbstractLocalInfo σ :=
  { ValueInfo := AbstractValueWithSources.default σ, IsMaybeUndefined := true }

/-- The checked constructor AbstractLocalInfo(valueInfo, isUndefined) from
absint.h lines 84-89; the assertion rejecting the Undefined kind with
isUndefined == false is modelled as returning none. -/
def AbstractLocalInfo.mk_checked {σ : Type}
    (valueInfo : AbstractValueWithSources σ) (isUndefined : Bool) :
    Option (AbstractLocalInfo σ) :=
  if valueInfo.Value = AbstractValueKind.Undefined ∧ isUndefined = false then
    none
  else
    some { ValueInfo := valueInfo, IsMaybeUndefined := isUndefined }

/-- AbstractLocalInfo::merge_with from absint.h lines 91-96 (release
semantics, in which the constructor assertion is a no-op): merge the value
infos and OR the undefined flags. -/
def AbstractLocalInfo.merge_with {σ : Type} [DecidableEq σ]
    (a other : AbstractLocalInfo σ) : AbstractLocalInfo σ :=
  { ValueInfo := a.ValueInfo.merge_with other.ValueInfo
    IsMaybeUndefined := a.IsMaybeUndefined || other.IsMaybeUndefined }

/-- The invariant of absint.h lines 70-72: state 4 (kind Undefined together
with IsMaybeUndefined == false) must never occur. -/
def AbstractLocalInfo.invariant {σ : Type}
    (l : AbstractLocalInfo σ) : Prop :=
  l.ValueInfo.Value = AbstractValueKind.Undefined → l.IsMaybeUndefined = true

instance {σ : Type} (l : AbstractLocalInfo σ) :
    Decidable l.invariant := by
  unfold AbstractLocalInfo.invariant
  infer_instance

section MergeLemmas

variable {σ : Type} [DecidableEq σ]

theorem kindMerge_undefined_left (b : AbstractValueKind) :
    kindMerge AbstractValueKind.Undefined b = b := by
  simp [kindMerge]

theorem kindMerge_undefined_iff (a b : AbstractValueKind) :
    kindMerge a b = AbstractValueKind.Undefined ↔
      a = AbstractValueKind.Undefined ∧ b = AbstractValueKind.Undefined := by
  cases a <;> cases b <;> simp [kindMerge]

theorem kindMerge_comm (a b : AbstractValueKind) :
    kindMerge a b = kindMerge b a := by
  cases a <;> cases b <;> rfl

theorem kindMerge_self (a : AbstractValueKind) : kindMerge a a = a := by
  cases a <;> rfl

theorem avws_merge_comm (a b : AbstractValueWithSources σ) :
    a.merge_with b = b.merge_with a := by
  simp [AbstractValueWithSources.merge_with, kindMerge_comm a.Value b.Value,
    Finset.union_comm a.Sources b.Sources, Bool.or_comm]

theorem avws_merge_self (a : AbstractValueWithSources σ) :
    a.merge_with a = a := by
  simp [AbstractValueWithSources.merge_with, kindMerge_self]

theorem local_merge_comm (a b : AbstractLocalInfo σ) :
    a.merge_with b = b.merge_with a := by
  simp [AbstractLocalInfo.merge_with, avws_merge_comm a.ValueInfo b.ValueInfo,
    Bool.or_comm]

theorem local_merge_self (a : AbstractLocalInfo σ) : a.merge_with a = a := by
  simp [AbstractLocalInfo.merge_with, avws_merge_self]

end MergeLemmas

theorem kindMerge_undefined_right (a : AbstractValueKind) :
    kindMerge a AbstractValueKind.Undefined = a := by
  cases a <;> rfl

/-- Modelled from the spec: the per-offset positional merge of the locals of
two interpreter states (AbstractInterpreter::merge_states lives in the missing
absint.cpp; spec section 4.3: "locals merge positionally via
AbstractLocalInfo.merge"). -/
def mergeLocalsPositional (a b : List (AbstractLocalInfo Nat)) :
    List (AbstractLocalInfo Nat) :=
  List.zipWith AbstractLocalInfo.merge_with a b

/-- Modelled from the spec: the per-offset positional merge of the stacks of
two interpreter states (spec section 4.3: "stacks merge positionally via
section 4.2"). -/
def mergeStackPositional (a b : List (AbstractValueWithSources Nat)) :
    List (AbstractValueWithSources Nat) :=
  List.zipWith AbstractValueWithSources.merge_with a b

theorem zipWith_self_of_idem {α : Type} (f : α → α → α) (h : ∀ a, f a a = a) :
    ∀ l : List α, List.zipWith f l l = l := by
  intro l
  induction l with
  | nil => rfl
  | cons x xs ih => simp [List.zipWith, h, ih]

/-- C1: AbstractLocalInfo::merge_with ORs the IsMaybeUndefined flags and
merges the value components, with an Undefined side absorbed into the defined
side; the merged value kind is Undefined only when both sides are Undefined. -/
theorem claim_C1_merge_with (a b : AbstractLocalInfo Nat) :
    (a.merge_with b).IsMaybeUndefined =
        (a.IsMaybeUndefined || b.IsMaybeUndefined) ∧
    (a.merge_with b).ValueInfo = a.ValueInfo.merge_with b.ValueInfo ∧
    (a.ValueInfo.Value = AbstractValueKind.Undefined →
      (a.merge_with b).ValueInfo.Value = b.ValueInfo.Value) ∧
    (b.ValueInfo.Value = AbstractValueKind.Undefined →
      (a.merge_with b).ValueInfo.Value = a.ValueInfo.Value) ∧
    ((a.merge_with b).ValueInfo.Value = AbstractValueKind.Undefined ↔
      (a.ValueInfo.Value = AbstractValueKind.Undefined ∧
        b.ValueInfo.Value = AbstractValueKind.Undefined)) := by
  refine ⟨rfl, rfl, ?_, ?_, ?_⟩
  · intro ha
    simp [AbstractLocalInfo.merge_with, AbstractValueWithSources.merge_with,
      ha, kindMerge_undefined_left]
  · intro hb
    simp [AbstractLocalInfo.merge_with, AbstractValueWithSources.merge_with,
      hb, kindMerge_undefined_right]
  · simpa [AbstractLocalInfo.merge_with, AbstractValueWithSources.merge_with]
      using kindMerge_undefined_iff a.ValueInfo.Value b.ValueInfo.Value

/-- Sample local of Int kind, definitely assigned, with one source tag. -/
def sampleIntLocal : AbstractLocalInfo Nat where
  ValueInfo := { Value := AbstractValueKind.Int, Sources := {3}, Escaped := false }
  IsMaybeUndefined := false

/-- Witness for C1 at concrete inputs: merging a definitely-unassigned local
with an Int local absorbs the Undefined side. -/
theorem claim_C1_merge_with_witness :
    ((AbstractLocalInfo.init Nat).merge_with sampleIntLocal).ValueInfo.Value =
      AbstractValueKind.Int :=
  (claim_C1_merge_with _ _).2.2.1 rfl

/-- C2: the forbidden fourth state (kind Undefined with IsMaybeUndefined ==
false) never occurs: the default constructor produces Undefined with the flag
set, the checked constructor rejects exactly the forbidden combination (and
any value it accepts satisfies the invariant), and merge_with of two values
satisfying the invariant satisfies the invariant. -/
theorem claim_C2_undefined_state_exclusion :
    (AbstractLocalInfo.init Nat).ValueInfo.Value =
        AbstractValueKind.Undefined ∧
    (AbstractLocalInfo.init Nat).IsMaybeUndefined = true ∧
    (∀ (v : AbstractValueWithSources Nat) (b : Bool),
      AbstractLocalInfo.mk_checked v b = none ↔
        (v.Value = AbstractValueKind.Undefined ∧ b = false)) ∧
    (∀ (v : AbstractValueWithSources Nat) (b : Bool) (l : AbstractLocalInfo Nat),
      AbstractLocalInfo.mk_checked v b = some l → l.invariant) ∧
    (∀ a b : AbstractLocalInfo Nat, a.invariant → b.invariant →
      (a.merge_with b).invariant) := by
  refine ⟨rfl, rfl, ?_, ?_, ?_⟩
  · intro v b
    unfold AbstractLocalInfo.mk_checked
    split <;> simp_all
  · intro v b l h
    unfold AbstractLocalInfo.mk_checked at h
    split at h
    · exact absurd h (by simp)
    · rename_i hcond
      obtain rfl : ({ ValueInfo := v, IsMaybeUndefined := b } :
          AbstractLocalInfo Nat) = l := by
        simpa using h
      intro hv
      rcases Bool.eq_false_or_eq_true b with hb | hb
      · exact hb
      · exact absurd ⟨hv, hb⟩ hcond
  · intro a b ha hb hmerged
    have hboth := (kindMerge_undefined_iff a.ValueInfo.Value
      b.ValueInfo.Value).mp hmerged
    simp [AbstractLocalInfo.merge_with, ha hboth.1, hb hboth.2]

/-- Witness for C2 at concrete inputs: the checked constructor rejects the
forbidden state, and merging two invariant-satisfying values preserves the
invariant. -/
theorem claim_C2_witness :
    AbstractLocalInfo.mk_checked
        ({ Value := AbstractValueKind.Undefined, Sources := ∅,
           Escaped := false } : AbstractValueWithSources Nat) false = none ∧
    ((AbstractLocalInfo.init Nat).merge_with
        (AbstractLocalInfo.init Nat)).invariant :=
  ⟨(claim_C2_undefined_state_exclusion.2.2.1 _ _).mpr ⟨rfl, rfl⟩,
    claim_C2_undefined_state_exclusion.2.2.2.2 _ _ (by decide) (by decide)⟩

/-- C3: the per-offset state merge is commutative and idempotent, both on a
single AbstractLocalInfo and element-wise over whole interpreter states (the
positional merges of the locals vector and of the value stack). -/
theorem claim_C3_merge_comm_idem :
    (∀ a b : AbstractLocalInfo Nat, a.merge_with b = b.merge_with a) ∧
    (∀ a : AbstractLocalInfo Nat, a.merge_with a = a) ∧
    (∀ v w : AbstractValueWithSources Nat, v.merge_with w = w.merge_with v) ∧
    (∀ v : AbstractValueWithSources Nat, v.merge_with v = v) ∧
    (∀ ls1 ls2 : List (AbstractLocalInfo Nat),
      mergeLocalsPositional ls1 ls2 = mergeLocalsPositional ls2 ls1) ∧
    (∀ ls : List (AbstractLocalInfo Nat),
      mergeLocalsPositional ls ls = ls) ∧
    (∀ st1 st2 : List (AbstractValueWithSources Nat),
      mergeStackPositional st1 st2 = mergeStackPositional st2 st1) ∧
    (∀ st : List (AbstractValueWithSources Nat),
      mergeStackPositional st st = st) := by
  refine ⟨local_merge_comm, local_merge_self, avws_merge_comm,
    avws_merge_self, ?_, ?_, ?_, ?_⟩
  · intro ls1 ls2
    exact List.zipWith_comm_of_comm _ local_merge_comm ls1 ls2
  · intro ls
    exact zipWith_self_of_idem _ local_merge_self ls
  · intro st1 st2
    exact List.zipWith_comm_of_comm _ avws_merge_comm st1 st2
  · intro st
    exact zipWith_self_of_idem _ avws_merge_self st

/-- Modelled from the spec: the reference-counted backing store of CowVector
(cowvector.h is not under src/); spec section 4.1: a shared, reference-counted
array with O(1) logical copy and copy-on-first-write mutation.  The heap maps
a store id to its contents, tracks a reference count per id, and allocates
fresh ids from nextId. -/
structure CowHeap (α : Type) where
  stores : Nat → List α
  refcount : Nat → Nat
  nextId : Nat

/-- Modelled from the spec: the O(1) logical copy of a CowVector handle, which
creates a second reference to the same backing store. -/
def CowHeap.copyRef {α : Type} (h : CowHeap α) (v : Nat) : CowHeap α × Nat :=
  ({ h with refcount := Function.update h.refcount v (h.refcount v + 1) }, v)

/-- Modelled from the spec: CowVector::replace (spec section 4.1): if the
backing store's reference count is 1 mutate it in place, otherwise allocate a
private copy of the backing store, decrement the old reference, and mutate the
private copy. -/
def CowHeap.replace {α : Type} (h : CowHeap α) (v i : Nat) (x : α) :
    CowHeap α × Nat :=
  if h.refcount v = 1 then
    ({ h with stores := Function.update h.stores v ((h.stores v).set i x) }, v)
  else
    ({ stores := Function.update h.stores h.nextId ((h.stores v).set i x)
       refcount := Function.update
         (Function.update h.refcount v (h.refcount v - 1)) h.nextId 1
       nextId := h.nextId + 1 }, h.nextId)

/-- Modelled from the spec: indexed read of a CowVector, which never
allocates. -/
def CowHeap.read {α : Type} (h : CowHeap α) (v i : Nat) : Option α :=
  (h.stores v).get? i

/-- InterpreterState from absint.h lines 135-187: the value stack (a unique
vector per state, top at the back) and the locals, held as a handle into the
copy-on-write backing heap. -/
structure InterpreterState where
  m_stack : List (AbstractValueWithSources Nat)
  m_locals : Nat

/-- InterpreterState::get_local from absint.h lines 147-149. -/
def InterpreterState.get_local (h : CowHeap (AbstractLocalInfo Nat))
    (s : InterpreterState) (index : Nat) : Option (AbstractLocalInfo Nat) :=
  h.read s.m_locals index

/-- The copy of an InterpreterState (copying shares the CowVector backing
store, incrementing its reference count). -/
def InterpreterState.fork (h : CowHeap (AbstractLocalInfo Nat))
    (s : InterpreterState) : CowHeap (AbstractLocalInfo Nat) × InterpreterState :=
  ((h.copyRef s.m_locals).1, { s with m_locals := (h.copyRef s.m_locals).2 })

/-- InterpreterState::replace_local from absint.h lines 155-157, delegating to
the copy-on-write replace. -/
def InterpreterState.replace_local (h : CowHeap (AbstractLocalInfo Nat))
    (s : InterpreterState) (index : Nat) (value : AbstractLocalInfo Nat) :
    CowHeap (AbstractLocalInfo Nat) × InterpreterState :=
  ((h.replace s.m_locals index value).1,
    { s with m_locals := (h.replace s.m_locals index value).2 })

/-- C5: copy-on-write isolation — after forking a state and writing a local on
the fork, every local of the original state reads exactly as before.  The
hypotheses say the original handle is live (reference count at least one) and
was allocated by the heap (its id is below nextId). -/
theorem claim_C5_cow_isolation (h : CowHeap (AbstractLocalInfo Nat))
    (s : InterpreterState) (i : Nat) (v : AbstractLocalInfo Nat)
    (hrc : 1 ≤ h.refcount s.m_locals) (hid : s.m_locals < h.nextId) :
    ∀ j : Nat,
      InterpreterState.get_local
        (InterpreterState.replace_local (InterpreterState.fork h s).1
          (InterpreterState.fork h s).2 i v).1 s j =
        InterpreterState.get_local h s j := by
  intro j
  unfold InterpreterState.get_local InterpreterState.replace_local
    InterpreterState.fork CowHeap.copyRef CowHeap.replace CowHeap.read
  simp only
  have hne : Function.update h.refcount s.m_locals
      (h.refcount s.m_locals + 1) s.m_locals ≠ 1 := by
    simp only [Function.update_same]
    omega
  rw [if_neg hne]
  simp only
  have hid2 : s.m_locals ≠ h.nextId := Nat.ne_of_lt hid
  rw [Function.update_noteq hid2]

/-- Witness for C5 at a concrete heap: one allocated store holding a single
default local, reference count one; after fork plus write, the original still
reads the default local. -/
theorem claim_C5_cow_isolation_witness :
    InterpreterState.get_local
        (InterpreterState.replace_local
          (InterpreterState.fork
            { stores := fun _ => [AbstractLocalInfo.init Nat]
              refcount := fun n => if n = 0 then 1 else 0
              nextId := 1 }
            { m_stack := [], m_locals := 0 }).1
          (InterpreterState.fork
            { stores := fun _ => [AbstractLocalInfo.init Nat]
              refcount := fun n => if n = 0 then 1 else 0
              nextId := 1 }
            { m_stack := [], m_locals := 0 }).2 0 sampleIntLocal).1
        { m_stack := [], m_locals := 0 } 0 =
      some (AbstractLocalInfo.init Nat) := by
  have hmain := claim_C5_cow_isolation
    { stores := fun _ => [AbstractLocalInfo.init Nat]
      refcount := fun n => if n = 0 then 1 else 0
      nextId := 1 }
    { m_stack := [], m_locals := 0 } 0 sampleIntLocal
    (by norm_num) (by norm_num) 0
  rw [hmain]
  rfl

/-- Modelled from the spec: AbstractValueWithSources::escapes (absvalue.h is
not under src/); "Marking a value as escaped records that it left the analysis
in boxed/generic form". -/
def AbstractValueWithSources.escapes {σ : Type}
    (v : AbstractValueWithSources σ) : AbstractValueWithSources σ :=
  { v with Escaped := true }

/-- InterpreterState::pop from absint.h lines 159-164: read the back of the
stack, mark that value escaped, remove it, and return its AbstractValue.  The
C++ behaviour on an empty stack is undefined, modelled as none. -/
def InterpreterState.pop (s : InterpreterState) :
    Option (AbstractValueKind × InterpreterState) :=
  match s.m_stack.getLast? with
  | none => none
  | some res => some (res.escapes.Value, { s with m_stack := s.m_stack.dropLast })

/-- InterpreterState::pop_no_escape from absint.h lines 166-170: remove and
return the back of the stack without marking it escaped. -/
def InterpreterState.pop_no_escape (s : InterpreterState) :
    Option (AbstractValueWithSources Nat × InterpreterState) :=
  match s.m_stack.getLast? with
  | none => none
  | some res => some (res, { s with m_stack := s.m_stack.dropLast })

/-- InterpreterState::stack_size from absint.h lines 180-182. -/
def InterpreterState.stack_size (s : InterpreterState) : Nat :=
  s.m_stack.length

/-- C9: on a non-empty stack, pop and pop_no_escape both remove exactly the
top element and decrease the stack size by one, leaving the locals handle and
all the other stack elements unchanged; pop returns the popped value's
AbstractValue after marking the value escaped, while pop_no_escape returns
the full AbstractValueWithSources unmarked. -/
theorem claim_C9_pop (s : InterpreterState)
    (top : AbstractValueWithSources Nat)
    (htop : s.m_stack.getLast? = some top) :
    s.pop = some (top.Value,
        { m_stack := s.m_stack.dropLast, m_locals := s.m_locals }) ∧
    s.pop_no_escape = some (top,
        { m_stack := s.m_stack.dropLast, m_locals := s.m_locals }) ∧
    InterpreterState.stack_size
        { m_stack := s.m_stack.dropLast, m_locals := s.m_locals } + 1 =
      s.stack_size ∧
    (∀ j : Nat, j + 1 < s.m_stack.length →
      s.m_stack.dropLast[j]? = s.m_stack[j]?) ∧
    top.escapes.Value = top.Value ∧
    top.escapes.Escaped = true := by
  have hne : s.m_stack ≠ [] := by
    intro hnil
    rw [hnil] at htop
    simp at htop
  refine ⟨?_, ?_, ?_, ?_, rfl, rfl⟩
  · simp [InterpreterState.pop, htop, AbstractValueWithSources.escapes]
  · simp [InterpreterState.pop_no_escape, htop]
  · simp only [InterpreterState.stack_size, List.length_dropLast]
    have : 0 < s.m_stack.length := List.length_pos.mpr hne
    omega
  · intro j hj
    rw [List.dropLast_eq_take]
    exact List.getElem?_take_of_lt (by omega)

/-- Witness for C9 at a concrete state with a single Int value on the stack. -/
theorem claim_C9_pop_witness :
    InterpreterState.pop
        { m_stack := [sampleIntLocal.ValueInfo], m_locals := 7 } =
      some (AbstractValueKind.Int, { m_stack := [], m_locals := 7 }) :=
  (claim_C9_pop { m_stack := [sampleIntLocal.ValueInfo], m_locals := 7 }
    sampleIntLocal.ValueInfo rfl).1

/-- UserModule from absint.h lines 304-326: a module with its own token and
address maps (the maps are members of the Module base class in the missing
ipycomp.h, modelled as association lists) and a parent module whose virtual
resolution methods are modelled as abstract functions. -/
structure UserModule where
  m_tokenToMethod : List (Int × Nat)
  m_methodAddrToToken : List (Nat × Int)
  parentResolveMethod : Int → Option Nat
  parentResolveMethodToken : Nat → Int

/-- UserModule::ResolveMethod from absint.h lines 310-317: look the token up
in the module's own map; if absent, delegate to the parent. -/
def UserModule.ResolveMethod (m : UserModule) (tokenId : Int) : Option Nat :=
  match m.m_tokenToMethod.find? (fun q => q.1 == tokenId) with
  | none => m.parentResolveMethod tokenId
  | some p => some p.2

/-- UserModule::ResolveMethodToken from absint.h lines 319-325: look the
address up in the module's own map; if absent, delegate to the parent. -/
def UserModule.ResolveMethodToken (m : UserModule) (addr : Nat) : Int :=
  match m.m_methodAddrToToken.find? (fun q => q.1 == addr) with
  | none => m.parentResolveMethodToken addr
  | some p => p.2

/-- C7: the resolve-else-delegate-to-parent contract: ResolveMethod returns
the module's own mapping when the token is registered and otherwise exactly
the parent's ResolveMethod result; ResolveMethodToken behaves analogously over
addresses. -/
theorem claim_C7_resolve_delegate (m : UserModule) (t : Int) (a : Nat) :
    (∀ p : Int × Nat, m.m_tokenToMethod.find? (fun q => q.1 == t) = some p →
      m.ResolveMethod t = some p.2) ∧
    (m.m_tokenToMethod.find? (fun q => q.1 == t) = none →
      m.ResolveMethod t = m.parentResolveMethod t) ∧
    (∀ p : Nat × Int, m.m_methodAddrToToken.find? (fun q => q.1 == a) = some p →
      m.ResolveMethodToken a = p.2) ∧
    (m.m_methodAddrToToken.find? (fun q => q.1 == a) = none →
      m.ResolveMethodToken a = m.parentResolveMethodToken a) := by
  refine ⟨?_, ?_, ?_, ?_⟩ <;> intro h
  · intro hfind
    simp [UserModule.ResolveMethod, hfind]
  · simp [UserModule.ResolveMethod, h]
  · intro hfind
    simp [UserModule.ResolveMethodToken, hfind]
  · simp [UserModule.ResolveMethodToken, h]

/-- Witness for C7 at a concrete module: token 5 is registered and resolves
locally; token 6 is unregistered and resolves through the parent. -/
theorem claim_C7_resolve_delegate_witness :
    UserModule.ResolveMethod
        { m_tokenToMethod := [((5 : Int), (77 : Nat))]
          m_methodAddrToToken := []
          parentResolveMethod := fun _ => some 99
          parentResolveMethodToken := fun _ => 42 } 5 = some 77 ∧
    UserModule.ResolveMethod
        { m_tokenToMethod := [((5 : Int), (77 : Nat))]
          m_methodAddrToToken := []
          parentResolveMethod := fun _ => some 99
          parentResolveMethodToken := fun _ => 42 } 6 = some 99 :=
  ⟨(claim_C7_resolve_delegate _ 5 0).1 (5, 77) rfl,
    (claim_C7_resolve_delegate _ 6 0).2.1 rfl⟩

/-- Modelled from the spec: IPythonCompiler::emit_define_local (ipycomp.h is
not under src/), "a local-variable-definition capability (reserve a typed
storage slot)".  The compiler state is the log of slots defined so far; each
call reserves one fresh slot. -/
def emit_define_local (comp : List Nat) : Nat × List Nat :=
  (comp.length, comp ++ [comp.length])

/-- ExceptionVars from absint.h lines 233-259: the saved-exception-state
variable slots; a slot never defined is none (the default Local of the missing
ipycomp.h is an invalid slot). -/
structure ExceptionVars where
  PrevExc : Option Nat
  PrevExcVal : Option Nat
  PrevTraceback : Option Nat
  FinallyExc : Option Nat
  FinallyTb : Option Nat
  FinallyValue : Option Nat
deriving DecidableEq

/-- The constructor ExceptionVars(comp, isFinally) from absint.h lines
249-258: define PrevExc, PrevExcVal, PrevTraceback, and, only when isFinally,
also FinallyExc, FinallyTb, FinallyValue. -/
def ExceptionVars.construct (comp : List Nat) (isFinally : Bool) :
    ExceptionVars × List Nat :=
  let r1 := emit_define_local comp
  let r2 := emit_define_local r1.2
  let r3 := emit_define_local r2.2
  if isFinally then
    let r4 := emit_define_local r3.2
    let r5 := emit_define_local r4.2
    let r6 := emit_define_local r5.2
    ({ PrevExc := some r1.1, PrevExcVal := some r2.1,
       PrevTraceback := some r3.1, FinallyExc := some r4.1,
       FinallyTb := some r5.1, FinallyValue := some r6.1 }, r6.2)
  else
    ({ PrevExc := some r1.1, PrevExcVal := some r2.1,
       PrevTraceback := some r3.1, FinallyExc := none,
       FinallyTb := none, FinallyValue := none }, r3.2)

/-- C8: constructing ExceptionVars reserves exactly the saved-exception-state
slots and nothing else: exactly three emit_define_local calls (PrevExc,
PrevExcVal, PrevTraceback) when isFinally is false and exactly six
(additionally FinallyExc, FinallyTb, FinallyValue) when isFinally is true. -/
theorem claim_C8_exception_vars (comp : List Nat) :
    (ExceptionVars.construct comp false).2 =
        comp ++ [comp.length, comp.length + 1, comp.length + 2] ∧
    (ExceptionVars.construct comp false).2.length = comp.length + 3 ∧
    (ExceptionVars.construct comp false).1 =
        { PrevExc := some comp.length, PrevExcVal := some (comp.length + 1),
          PrevTraceback := some (comp.length + 2), FinallyExc := none,
          FinallyTb := none, FinallyValue := none } ∧
    (ExceptionVars.construct comp true).2 =
        comp ++ [comp.length, comp.length + 1, comp.length + 2,
          comp.length + 3, comp.length + 4, comp.length + 5] ∧
    (ExceptionVars.construct comp true).2.length = comp.length + 6 ∧
    (ExceptionVars.construct comp true).1 =
        { PrevExc := some comp.length, PrevExcVal := some (comp.length + 1),
          PrevTraceback := some (comp.length + 2),
          FinallyExc := some (comp.length + 3),
          FinallyTb := some (comp.length + 4),
          FinallyValue := some (comp.length + 5) } := by
  refine ⟨?_, ?_, ?_, ?_, ?_, ?_⟩ <;>
    simp [ExceptionVars.construct, emit_define_local, List.append_assoc]

/-- Parameter from the missing ipycomp.h: only its m_type field is consulted
by ILGenerator's local caching; the type tag indexes the per-type freed lists
(the CORINFO type codes are modelled as Nat). -/
structure ILParameter where
  m_type : Nat
deriving DecidableEq

/-- LabelInfo from ilgen.h lines 93-101: the label's bound location (-1 while
unbound) and the branch sites recorded while the label was unbound. -/
structure LabelInfo where
  m_location : Int
  m_branchOffsets : List Nat
deriving DecidableEq

/-- ILGenerator from ilgen.h lines 103-117: the declared locals, the per-type
lists of freed local indices (m_freedLocals), the running local count, the
emitted IL byte stream, and the labels. -/
structure ILGenerator where
  m_locals : List ILParameter
  m_freedLocals : Nat → List Nat
  m_localCount : Nat
  m_il : List Nat
  m_labels : List LabelInfo

/-- ILGenerator::define_local_no_cache from ilgen.h lines 129-132: record the
parameter and return a fresh local index. -/
def ILGenerator.define_local_no_cache (g : ILGenerator) (param : ILParameter) :
    ILGenerator × Nat :=
  ({ g with m_locals := g.m_locals ++ [param],
            m_localCount := g.m_localCount + 1 }, g.m_localCount)

/-- ILGenerator::define_local from ilgen.h lines 119-127: reuse the last freed
local of the parameter's type if one exists, else allocate a fresh one. -/
def ILGenerator.define_local (g : ILGenerator) (param : ILParameter) :
    ILGenerator × Nat :=
  let existing := g.m_freedLocals param.m_type
  match existing.getLast? with
  | some res =>
      ({ g with m_freedLocals :=
          Function.update g.m_freedLocals param.m_type existing.dropLast }, res)
  | none => g.define_local_no_cache param

/-- ILGenerator::free_local from ilgen.h lines 134-146: look up the local's
type, and append the local to that type's freed list; the debug-build loop
asserting the local is not already on the list is modelled as returning none
when it fires. -/
def ILGenerator.free_local (g : ILGenerator) (localIndex : Nat) :
    Option ILGenerator :=
  let param := g.m_locals.getD localIndex { m_type := 0 }
  let localList := g.m_freedLocals param.m_type
  if localList.any (fun x => x == localIndex) then none
  else
    some { g with
      m_freedLocals := Function.update g.m_freedLocals param.m_type (localList ++ [localIndex]) }

/-- The free-list invariant of ilgen.h: no per-type freed list holds the same
local index twice. -/
def ILGenerator.freedNodup (g : ILGenerator) : Prop :=
  ∀ t : Nat, (g.m_freedLocals t).Nodup

/-- C6: double-release of a freed local slot fires the double-free assertion:
if a local is already on the freed list for its type, free_local fails; and
the per-type freed lists never contain an index twice — successful free_local
and define_local both preserve the no-duplicates invariant. -/
theorem claim_C6_double_free (g : ILGenerator) (l : Nat) (p : ILParameter) :
    (l ∈ g.m_freedLocals (g.m_locals.getD l { m_type := 0 }).m_type →
      g.free_local l = none) ∧
    (∀ g2 : ILGenerator, g.freedNodup → g.free_local l = some g2 →
      g2.freedNodup) ∧
    (g.freedNodup → (g.define_local p).1.freedNodup) := by
  refine ⟨?_, ?_, ?_⟩
  · intro hmem
    simp only [ILGenerator.free_local]
    rw [if_pos (List.any_eq_true.mpr ⟨l, hmem, by simp⟩)]
  · intro g2 hinv hfree
    simp only [ILGenerator.free_local] at hfree
    split at hfree
    · exact absurd hfree (by simp)
    · rename_i hnot
      have hnomem : l ∉ g.m_freedLocals
          (g.m_locals.getD l { m_type := 0 }).m_type := by
        intro hmem
        exact hnot (List.any_eq_true.mpr ⟨l, hmem, by simp⟩)
      obtain rfl := Option.some.inj hfree
      intro t
      by_cases ht : t = (g.m_locals.getD l { m_type := 0 }).m_type
      · subst ht
        simp only [Function.update_same]
        rw [List.nodup_append]
        refine ⟨hinv _, List.nodup_singleton l, ?_⟩
        intro a ha hal
        rw [List.mem_singleton] at hal
        exact hnomem (hal ▸ ha)
      · simpa [Function.update_noteq ht] using hinv t
  · intro hinv
    simp only [ILGenerator.define_local]
    split
    · rename_i res hres
      intro t
      by_cases ht : t = p.m_type
      · subst ht
        simp only [Function.update_same]
        rw [List.dropLast_eq_take]
        exact (hinv p.m_type).sublist (List.take_sublist _ _)
      · simpa [Function.update_noteq ht] using hinv t
    · exact hinv

/-- Witness for C6 at a concrete generator: local 0 of type 2 is already on
the type-2 freed list, so freeing it again fails the assertion. -/
theorem claim_C6_double_free_witness :
    ILGenerator.free_local
        { m_locals := [{ m_type := 2 }]
          m_freedLocals := fun t => if t = 2 then [0] else []
          m_localCount := 1
          m_il := []
          m_labels := [] } 0 = none :=
  (claim_C6_double_free
    { m_locals := [{ m_type := 2 }]
      m_freedLocals := fun t => if t = 2 then [0] else []
      m_localCount := 1
      m_il := []
      m_labels := [] } 0 { m_type := 0 }).1 (by decide)

/-- Byte k (little-endian, two's complement) of a 32-bit value, as written by
the shift-and-mask stores in ilgen.h. -/
def byteOfInt32 (o : Int) (k : Nat) : Nat :=
  (o % (2 ^ 32 : Int)).toNat / 256 ^ k % 256

/-- The four little-endian byte stores of ilgen.h lines 161-164 (and of
emit_int, lines 560-565), writing a 32-bit value at position f of the IL
stream. -/
def patchInt32 (il : List Nat) (f : Nat) (o : Int) : List Nat :=
  (((il.set f (byteOfInt32 o 0)).set (f + 1) (byteOfInt32 o 1)).set
    (f + 2) (byteOfInt32 o 2)).set (f + 3) (byteOfInt32 o 3)

/-- ILGenerator::define_label from ilgen.h lines 148-151: push a fresh unbound
label and return its index. -/
def ILGenerator.define_label (g : ILGenerator) : ILGenerator × Nat :=
  ({ g with m_labels := g.m_labels ++ [{ m_location := -1, m_branchOffsets := [] }] },
    g.m_labels.length)

/-- ILGenerator::mark_label from ilgen.h lines 153-166: assert the label is
unbound (modelled as none when the assertion fires), record the current IL
position as its location, and patch every recorded branch site f with the
32-bit little-endian value of location - (f + 4). -/
def ILGenerator.mark_label (g : ILGenerator) (label : Nat) : Option ILGenerator :=
  match g.m_labels[label]? with
  | none => none
  | some info =>
    if info.m_location = -1 then
      some { g with
        m_il := info.m_branchOffsets.foldl
          (fun il f => patchInt32 il f ((g.m_il.length : Int) - (f + 4))) g.m_il
        m_labels := g.m_labels.set label
          { m_location := (g.m_il.length : Int)
            m_branchOffsets := info.m_branchOffsets } }
    else none

/-- The branch opcode bytes of the external opcode table (openum.h is outside
this repository; the ECMA-335 values are used, though no claim depends on
them): short form. -/
def shortBranchOpcode : Nat := 0x2B

/-- Long-form branch opcode byte (see shortBranchOpcode). -/
def longBranchOpcode : Nat := 0x38

/-- ILGenerator::branch(branchType, offset) from ilgen.h lines 246-293:
short form (opcode plus one byte holding offset - 2) when offset - 2 lies in
[-127, 128], else long form (opcode plus the 32-bit value offset - 5).  The
opcode byte depends on the branch type; BranchAlways is shown, and the byte
choice is irrelevant to the layout the claims are about. -/
def ILGenerator.branch_to_offset (g : ILGenerator) (offset : Int) : ILGenerator :=
  if offset - 2 ≤ 128 ∧ -127 ≤ offset - 2 then
    { g with m_il := g.m_il ++ [shortBranchOpcode, ((offset - 2) % (256 : Int)).toNat] }
  else
    { g with m_il := g.m_il ++ [longBranchOpcode, byteOfInt32 (offset - 5) 0,
        byteOfInt32 (offset - 5) 1, byteOfInt32 (offset - 5) 2,
        byteOfInt32 (offset - 5) 3] }

/-- ILGenerator::branch(branchType, label) from ilgen.h lines 235-244: if the
label is unbound, record the branch site (one past the opcode about to be
emitted) for later fixup and emit a placeholder branch to 0xFFFF; otherwise
emit a branch with the relative offset location - current size directly. -/
def ILGenerator.branch (g : ILGenerator) (label : Nat) : Option ILGenerator :=
  match g.m_labels[label]? with
  | none => none
  | some info =>
    if info.m_location = -1 then
      let info2 : LabelInfo :=
        { m_location := info.m_location
          m_branchOffsets := info.m_branchOffsets ++ [g.m_il.length + 1] }
      let g2 := { g with m_labels := g.m_labels.set label info2 }
      some (g2.branch_to_offset 0xFFFF)
    else
      some (g.branch_to_offset (info.m_location - (g.m_il.length : Int)))

theorem patchInt32_length (il : List Nat) (f : Nat) (o : Int) :
    (patchInt32 il f o).length = il.length := by
  simp [patchInt32]

theorem patchInt32_get_outside (il : List Nat) (f : Nat) (o : Int) (j : Nat)
    (hj : j < f ∨ f + 4 ≤ j) : (patchInt32 il f o)[j]? = il[j]? := by
  unfold patchInt32
  rw [List.getElem?_set_ne (by omega), List.getElem?_set_ne (by omega),
    List.getElem?_set_ne (by omega), List.getElem?_set_ne (by omega)]

theorem patchInt32_get_at (il : List Nat) (f : Nat) (o : Int)
    (hf : f + 4 ≤ il.length) :
    (patchInt32 il f o)[f]? = some (byteOfInt32 o 0) ∧
    (patchInt32 il f o)[f + 1]? = some (byteOfInt32 o 1) ∧
    (patchInt32 il f o)[f + 2]? = some (byteOfInt32 o 2) ∧
    (patchInt32 il f o)[f + 3]? = some (byteOfInt32 o 3) := by
  unfold patchInt32
  refine ⟨?_, ?_, ?_, ?_⟩
  · rw [List.getElem?_set_ne (by omega), List.getElem?_set_ne (by omega),
      List.getElem?_set_ne (by omega)]
    exact List.getElem?_set_eq_of_lt _ (by omega)
  · rw [List.getElem?_set_ne (by omega), List.getElem?_set_ne (by omega)]
    exact List.getElem?_set_eq_of_lt _ (by simp; omega)
  · rw [List.getElem?_set_ne (by omega)]
    exact List.getElem?_set_eq_of_lt _ (by simp; omega)
  · exact List.getElem?_set_eq_of_lt _ (by simp; omega)

/-- Two branch-site fixup windows of four bytes each do not overlap. -/
def wdisj (a b : Nat) : Prop := a + 4 ≤ b ∨ b + 4 ≤ a

theorem foldPatch_length (off : Nat → Int) :
    ∀ (L : List Nat) (il : List Nat),
      (L.foldl (fun il2 f => patchInt32 il2 f (off f)) il).length = il.length := by
  intro L
  induction L with
  | nil => intro il; rfl
  | cons g L ih =>
      intro il
      rw [List.foldl_cons, ih, patchInt32_length]

theorem foldPatch_preserve (off : Nat → Int) :
    ∀ (L : List Nat) (il : List Nat) (j : Nat),
      (∀ f ∈ L, j < f ∨ f + 4 ≤ j) →
      (L.foldl (fun il2 f => patchInt32 il2 f (off f)) il)[j]? = il[j]? := by
  intro L
  induction L with
  | nil => intro il j _; rfl
  | cons g L ih =>
      intro il j hj
      rw [List.foldl_cons, ih _ _ (fun f hf => hj f (List.mem_cons_of_mem g hf)),
        patchInt32_get_outside _ _ _ _
          (by rcases hj g (List.mem_cons_self g L) with h | h <;> omega)]

theorem foldPatch_get (off : Nat → Int) :
    ∀ (L : List Nat) (il : List Nat) (f : Nat), f ∈ L →
      List.Pairwise wdisj L → f + 4 ≤ il.length →
      (L.foldl (fun il2 f2 => patchInt32 il2 f2 (off f2)) il)[f]? =
          some (byteOfInt32 (off f) 0) ∧
      (L.foldl (fun il2 f2 => patchInt32 il2 f2 (off f2)) il)[f + 1]? =
          some (byteOfInt32 (off f) 1) ∧
      (L.foldl (fun il2 f2 => patchInt32 il2 f2 (off f2)) il)[f + 2]? =
          some (byteOfInt32 (off f) 2) ∧
      (L.foldl (fun il2 f2 => patchInt32 il2 f2 (off f2)) il)[f + 3]? =
          some (byteOfInt32 (off f) 3) := by
  intro L
  induction L with
  | nil => intro il f hf; exact absurd hf (List.not_mem_nil f)
  | cons g L ih =>
      intro il f hf hpw hlen
      rw [List.pairwise_cons] at hpw
      rcases List.mem_cons.mp hf with rfl | hfL
      · have hpres : ∀ j : Nat, f ≤ j → j ≤ f + 3 →
            (L.foldl (fun il2 f2 => patchInt32 il2 f2 (off f2))
              (patchInt32 il f (off f)))[j]? = (patchInt32 il f (off f))[j]? := by
          intro j h1 h2
          refine foldPatch_preserve off L _ j ?_
          intro f2 hf2
          rcases hpw.1 f2 hf2 with h | h
          · exact Or.inl (by omega)
          · exact Or.inr (by omega)
        have hat := patchInt32_get_at il f (off f) hlen
        rw [List.foldl_cons]
        exact ⟨(hpres f (by omega) (by omega)).trans hat.1,
          (hpres (f + 1) (by omega) (by omega)).trans hat.2.1,
          (hpres (f + 2) (by omega) (by omega)).trans hat.2.2.1,
          (hpres (f + 3) (by omega) (by omega)).trans hat.2.2.2⟩
      · rw [List.foldl_cons]
        exact ih (patchInt32 il g (off g)) f hfL hpw.2
          (by rw [patchInt32_length]; exact hlen)

theorem branch_to_offset_labels (g : ILGenerator) (o : Int) :
    (g.branch_to_offset o).m_labels = g.m_labels := by
  unfold ILGenerator.branch_to_offset
  split <;> rfl

/-- C10: a label is bound at most once and binding resolves every pending
branch: mark_label fails on an already-bound label; on an unbound label it
records the current IL position as the location and overwrites each recorded
branch site f with the 4-byte little-endian value of location - (f + 4)
(stated for sites whose fixup windows lie in the stream and do not overlap,
as the generator maintains); and a branch emitted after binding encodes the
relative offset directly and records no fixup. -/
theorem claim_C10_label_branch (g : ILGenerator) (label : Nat)
    (info : LabelInfo) (hget : g.m_labels[label]? = some info) :
    (info.m_location ≠ -1 → g.mark_label label = none) ∧
    (info.m_location = -1 →
      ∃ g2 : ILGenerator, g.mark_label label = some g2 ∧
        g2.m_labels[label]? = some
          { m_location := (g.m_il.length : Int)
            m_branchOffsets := info.m_branchOffsets } ∧
        g2.m_il.length = g.m_il.length ∧
        (List.Pairwise wdisj info.m_branchOffsets →
          ∀ f ∈ info.m_branchOffsets, f + 4 ≤ g.m_il.length →
            g2.m_il[f]? =
                some (byteOfInt32 ((g.m_il.length : Int) - (f + 4)) 0) ∧
            g2.m_il[f + 1]? =
                some (byteOfInt32 ((g.m_il.length : Int) - (f + 4)) 1) ∧
            g2.m_il[f + 2]? =
                some (byteOfInt32 ((g.m_il.length : Int) - (f + 4)) 2) ∧
            g2.m_il[f + 3]? =
                some (byteOfInt32 ((g.m_il.length : Int) - (f + 4)) 3))) ∧
    (info.m_location ≠ -1 →
      g.branch label =
          some (g.branch_to_offset (info.m_location - (g.m_il.length : Int))) ∧
      (g.branch_to_offset
          (info.m_location - (g.m_il.length : Int))).m_labels = g.m_labels) ∧
    (info.m_location = -1 →
      ∃ g2 : ILGenerator, g.branch label = some g2 ∧
        g2.m_labels[label]? = some
          { m_location := (-1 : Int)
            m_branchOffsets := info.m_branchOffsets ++ [g.m_il.length + 1] }) := by
  have hlt : label < g.m_labels.length := by
    rcases List.getElem?_eq_some.mp hget with ⟨h, _⟩
    exact h
  refine ⟨?_, ?_, ?_, ?_⟩
  · intro hbound
    unfold ILGenerator.mark_label
    rw [hget]
    simp [if_neg hbound]
  · intro hunbound
    refine ⟨{ g with m_il := info.m_branchOffsets.foldl (fun il f => patchInt32 il f ((g.m_il.length : Int) - (f + 4))) g.m_il, m_labels := g.m_labels.set label { m_location := (g.m_il.length : Int), m_branchOffsets := info.m_branchOffsets } }, ?_, ?_, ?_, ?_⟩
    · unfold ILGenerator.mark_label
      rw [hget]
      simp [hunbound]
    · exact List.getElem?_set_eq_of_lt _ hlt
    · exact foldPatch_length (fun f2 => (g.m_il.length : Int) - (f2 + 4))
        info.m_branchOffsets g.m_il
    · intro hpw f hf hlen
      exact foldPatch_get (fun f2 => (g.m_il.length : Int) - (f2 + 4))
        info.m_branchOffsets g.m_il f hf hpw hlen
  · intro hbound
    constructor
    · unfold ILGenerator.branch
      rw [hget]
      simp [if_neg hbound]
    · exact branch_to_offset_labels g _
  · intro hunbound
    refine ⟨ILGenerator.branch_to_offset { g with m_labels := g.m_labels.set label { m_location := info.m_location, m_branchOffsets := info.m_branchOffsets ++ [g.m_il.length + 1] } } 0xFFFF, ?_, ?_⟩
    · unfold ILGenerator.branch
      rw [hget]
      simp [hunbound]
    · rw [branch_to_offset_labels]
      rw [← hunbound]
      exact List.getElem?_set_eq_of_lt _ hlt

/-- Concrete generator for the C10 witness: five emitted bytes (a long-form
placeholder branch whose fixup window starts at offset 1) and one unbound
label with that pending site. -/
def sampleGen : ILGenerator where
  m_locals := []
  m_freedLocals := fun _ => []
  m_localCount := 0
  m_il := [0x38, 0xFA, 0xFF, 0xFF, 0xFF]
  m_labels := [{ m_location := -1, m_branchOffsets := [1] }]

/-- Witness for C10 at sampleGen: binding the label records location 5 and
patches the pending site with the little-endian bytes of 5 - (1 + 4) = 0. -/
theorem claim_C10_label_branch_witness :
    ∃ g2 : ILGenerator, sampleGen.mark_label 0 = some g2 ∧
      g2.m_labels[0]? = some { m_location := (5 : Int), m_branchOffsets := [1] } ∧
      g2.m_il[1]? = some 0 := by
  obtain ⟨g2, h1, h2, h3, h4⟩ :=
    (claim_C10_label_branch sampleGen 0
      { m_location := -1, m_branchOffsets := [1] } rfl).2.1 rfl
  refine ⟨g2, h1, by simpa [sampleGen] using h2, ?_⟩
  have hb := (h4 (by simp) 1 (by simp) (by simp [sampleGen])).1
  simpa [sampleGen, byteOfInt32] using hb

/-- Per-offset analysis state for the termination model: the locals vector of
an interpreter state, with source tags drawn from the function's finite pool
of m tags (spec section 4.4: states are drawn from a finite-height lattice). -/
def LocalsState (n m : Nat) : Type := Fin n → AbstractLocalInfo (Fin m)

instance (n m : Nat) : DecidableEq (LocalsState n m) := by
  unfold LocalsState
  infer_instance

/-- Rank of a kind in the widening order Undefined < specific kind < Object
(spec section 4.2: "the kind lattice has height 2"). -/
def kindRank : AbstractValueKind → Nat
  | AbstractValueKind.Undefined => 0
  | AbstractValueKind.Object => 2
  | _ => 1

/-- Rank of a value: kind height plus source-set size plus the escaped bit;
merging can only increase it. -/
def avwsRank {m : Nat} (v : AbstractValueWithSources (Fin m)) : Nat :=
  kindRank v.Value + v.Sources.card + cond v.Escaped 1 0

/-- Rank of one local's state, adding the maybe-undefined bit. -/
def localRank {m : Nat} (l : AbstractLocalInfo (Fin m)) : Nat :=
  avwsRank l.ValueInfo + cond l.IsMaybeUndefined 1 0

/-- Rank of a whole locals vector. -/
def stateRank {n m : Nat} (s : LocalsState n m) : Nat :=
  ∑ i, localRank (s i)

/-- Modelled from the spec: the element-wise merge of two per-offset states
(AbstractInterpreter::merge_states lives in the missing absint.cpp; spec
section 4.3 merges locals positionally). -/
def mergeStates {n m : Nat} (a b : LocalsState n m) : LocalsState n m :=
  fun i => (a i).merge_with (b i)

theorem localRank_le {m : Nat} (l : AbstractLocalInfo (Fin m)) :
    localRank l ≤ m + 4 := by
  have h1 : kindRank l.ValueInfo.Value ≤ 2 := by
    cases l.ValueInfo.Value <;> simp [kindRank]
  have h2 : l.ValueInfo.Sources.card ≤ m := by
    simpa using Finset.card_le_univ l.ValueInfo.Sources
  have h3 : cond l.ValueInfo.Escaped 1 0 ≤ 1 := by
    cases l.ValueInfo.Escaped <;> simp
  have h4 : cond l.IsMaybeUndefined 1 0 ≤ 1 := by
    cases l.IsMaybeUndefined <;> simp
  unfold localRank avwsRank
  omega

theorem stateRank_le {n m : Nat} (s : LocalsState n m) :
    stateRank s ≤ n * (m + 4) := by
  calc stateRank s ≤ ∑ _i : Fin n, (m + 4) :=
        Finset.sum_le_sum (fun i _ => localRank_le (s i))
    _ = n * (m + 4) := by simp [Finset.sum_const, mul_comm]

theorem kindRank_mono (a b : AbstractValueKind) :
    kindRank a ≤ kindRank (kindMerge a b) := by
  cases a <;> cases b <;> decide

theorem kindRank_strict (a b : AbstractValueKind) :
    kindMerge a b ≠ a → kindRank a < kindRank (kindMerge a b) := by
  cases a <;> cases b <;> decide

theorem localRank_mono {m : Nat} (a b : AbstractLocalInfo (Fin m)) :
    localRank a ≤ localRank (a.merge_with b) := by
  obtain ⟨⟨ak, asrc, ae⟩, af⟩ := a
  obtain ⟨⟨bk, bsrc, be⟩, bf⟩ := b
  simp only [AbstractLocalInfo.merge_with, AbstractValueWithSources.merge_with,
    localRank, avwsRank]
  have h1 : kindRank ak ≤ kindRank (kindMerge ak bk) := kindRank_mono ak bk
  have h2 : asrc.card ≤ (asrc ∪ bsrc).card :=
    Finset.card_le_card Finset.subset_union_left
  have h3 : cond ae 1 0 ≤ cond (ae || be) 1 0 := by
    cases ae <;> cases be <;> decide
  have h4 : cond af 1 0 ≤ cond (af || bf) 1 0 := by
    cases af <;> cases bf <;> decide
  omega

theorem localRank_strict {m : Nat} (a b : AbstractLocalInfo (Fin m))
    (hne : a.merge_with b ≠ a) :
    localRank a < localRank (a.merge_with b) := by
  obtain ⟨⟨ak, asrc, ae⟩, af⟩ := a
  obtain ⟨⟨bk, bsrc, be⟩, bf⟩ := b
  have hne2 : ¬(kindMerge ak bk = ak ∧ asrc ∪ bsrc = asrc ∧
      (ae || be) = ae ∧ (af || bf) = af) := by
    rintro ⟨e1, e2, e3, e4⟩
    exact hne (by simp [AbstractLocalInfo.merge_with,
      AbstractValueWithSources.merge_with, e1, e2, e3, e4])
  simp only [AbstractLocalInfo.merge_with, AbstractValueWithSources.merge_with,
    localRank, avwsRank]
  have h2m : asrc.card ≤ (asrc ∪ bsrc).card :=
    Finset.card_le_card Finset.subset_union_left
  have h3m : cond ae 1 0 ≤ cond (ae || be) 1 0 := by
    cases ae <;> cases be <;> decide
  have h4m : cond af 1 0 ≤ cond (af || bf) 1 0 := by
    cases af <;> cases bf <;> decide
  by_cases h1 : kindMerge ak bk = ak
  · by_cases h2 : asrc ∪ bsrc = asrc
    · by_cases h3 : (ae || be) = ae
      · have h4 : (af || bf) ≠ af := fun h4 => hne2 ⟨h1, h2, h3, h4⟩
        have s4 : cond af 1 0 < cond (af || bf) 1 0 := by
          cases af <;> cases bf <;> simp_all
        rw [h1, h2, h3]
        omega
      · have s3 : cond ae 1 0 < cond (ae || be) 1 0 := by
          cases ae <;> cases be <;> simp_all
        rw [h1, h2]
        omega
    · have hss : asrc ⊂ asrc ∪ bsrc :=
        Finset.ssubset_iff_subset_ne.mpr
          ⟨Finset.subset_union_left, fun h => h2 h.symm⟩
      have s2 : asrc.card < (asrc ∪ bsrc).card := Finset.card_lt_card hss
      have h1m : kindRank ak ≤ kindRank (kindMerge ak bk) := kindRank_mono ak bk
      omega
  · have s1 : kindRank ak < kindRank (kindMerge ak bk) := kindRank_strict ak bk h1
    omega

theorem stateRank_mono {n m : Nat} (a b : LocalsState n m) :
    stateRank a ≤ stateRank (mergeStates a b) :=
  Finset.sum_le_sum (fun i _ => localRank_mono (a i) (b i))

theorem stateRank_strict {n m : Nat} (a b : LocalsState n m)
    (hne : mergeStates a b ≠ a) :
    stateRank a < stateRank (mergeStates a b) := by
  obtain ⟨i, hi⟩ := Function.ne_iff.mp hne
  exact Finset.sum_lt_sum (fun j _ => localRank_mono (a j) (b j))
    ⟨i, Finset.mem_univ i, localRank_strict (a i) (b i) hi⟩

/-- Modelled from the spec: the whole analysis configuration of
AbstractInterpreter::interpret (absint.cpp is missing): the recorded
per-offset start states (m_startStates) and the worklist of offsets still to
process. -/
structure AnalysisConfig (n m numOff : Nat) where
  states : Fin numOff → LocalsState n m
  worklist : List (Fin numOff)

/-- Total headroom still available below the lattice ceiling across all
recorded states; merging strictly shrinks it whenever a recorded state
changes. -/
def slack {n m numOff : Nat} (states : Fin numOff → LocalsState n m) : Nat :=
  ∑ o, (n * (m + 4) - stateRank (states o))

/-- Modelled from the spec: AbstractInterpreter::update_start_state (absint.cpp
is missing; spec section 4.3): merge one successor's incoming state into its
recorded state, and enqueue the successor exactly when the merged recorded
state changed. -/
def processSucc {n m numOff : Nat}
    (sp : (Fin numOff → LocalsState n m) × List (Fin numOff))
    (item : Fin numOff × LocalsState n m) :
    (Fin numOff → LocalsState n m) × List (Fin numOff) :=
  if mergeStates (sp.1 item.1) item.2 = sp.1 item.1 then sp
  else (Function.update sp.1 item.1 (mergeStates (sp.1 item.1) item.2),
    sp.2 ++ [item.1])

/-- Modelled from the spec: one worklist iteration of
AbstractInterpreter::interpret (spec section 4.4): pop an offset, apply the
per-opcode transfer function to its recorded state to obtain the successor
offsets and their incoming states, merge each into the recorded table, and
append the offsets whose recorded state changed. -/
def stepConfig {n m numOff : Nat}
    (transfer : Fin numOff → LocalsState n m →
      List (Fin numOff × LocalsState n m))
    (c : AnalysisConfig n m numOff) : AnalysisConfig n m numOff :=
  match c.worklist with
  | [] => c
  | o :: rest =>
      { states := ((transfer o (c.states o)).foldl processSucc (c.states, [])).1
        worklist := rest ++
          ((transfer o (c.states o)).foldl processSucc (c.states, [])).2 }

/-- The decreasing measure: total remaining lattice headroom plus pending
worklist length. -/
def measureConfig {n m numOff : Nat} (c : AnalysisConfig n m numOff) : Nat :=
  slack c.states + c.worklist.length

theorem slack_update_lt {n m numOff : Nat}
    (states : Fin numOff → LocalsState n m) (succ : Fin numOff)
    (merged : LocalsState n m) (hlt : stateRank (states succ) < stateRank merged) :
    slack (Function.update states succ merged) < slack states := by
  refine Finset.sum_lt_sum ?_ ⟨succ, Finset.mem_univ succ, ?_⟩
  · intro o _
    by_cases ho : o = succ
    · subst ho
      rw [Function.update_same]
      exact Nat.sub_le_sub_left (le_of_lt hlt) _
    · rw [Function.update_noteq ho]
  · rw [Function.update_same]
    exact Nat.sub_lt_sub_left (lt_of_lt_of_le hlt (stateRank_le merged)) hlt

theorem processSucc_measure {n m numOff : Nat}
    (sp : (Fin numOff → LocalsState n m) × List (Fin numOff))
    (item : Fin numOff × LocalsState n m) :
    slack (processSucc sp item).1 + (processSucc sp item).2.length ≤
      slack sp.1 + sp.2.length := by
  unfold processSucc
  split
  · exact le_refl _
  · rename_i hne
    have h1 : slack (Function.update sp.1 item.1
        (mergeStates (sp.1 item.1) item.2)) < slack sp.1 :=
      slack_update_lt sp.1 item.1 _ (stateRank_strict (sp.1 item.1) item.2 hne)
    simp only [List.length_append, List.length_cons, List.length_nil]
    omega

theorem foldl_processSucc_measure {n m numOff : Nat}
    (items : List (Fin numOff × LocalsState n m)) :
    ∀ sp : (Fin numOff → LocalsState n m) × List (Fin numOff),
      slack (items.foldl processSucc sp).1 +
          (items.foldl processSucc sp).2.length ≤
        slack sp.1 + sp.2.length := by
  induction items with
  | nil => intro sp; exact le_refl _
  | cons it items ih =>
      intro sp
      rw [List.foldl_cons]
      exact le_trans (ih (processSucc sp it)) (processSucc_measure sp it)

theorem stepConfig_measure_lt {n m numOff : Nat}
    (transfer : Fin numOff → LocalsState n m →
      List (Fin numOff × LocalsState n m))
    (c : AnalysisConfig n m numOff) (hne : c.worklist ≠ []) :
    measureConfig (stepConfig transfer c) < measureConfig c := by
  rcases hcw : c.worklist with _ | ⟨o, rest⟩
  · exact absurd hcw hne
  · have hf := foldl_processSucc_measure (transfer o (c.states o)) (c.states, [])
    simp only [List.length_nil] at hf
    unfold measureConfig stepConfig
    rw [hcw]
    simp only [List.length_append, List.length_cons]
    omega

theorem stepConfig_iterate_fixed {n m numOff : Nat}
    (transfer : Fin numOff → LocalsState n m →
      List (Fin numOff × LocalsState n m))
    (c : AnalysisConfig n m numOff) (h : c.worklist = []) :
    ∀ k : Nat, (stepConfig transfer)^[k] c = c := by
  intro k
  induction k with
  | zero => rfl
  | succ k ih =>
      rw [Function.iterate_succ_apply]
      have hs : stepConfig transfer c = c := by
        unfold stepConfig
        rw [h]
      rw [hs]
      exact ih

theorem iterate_reaches_empty {n m numOff : Nat}
    (transfer : Fin numOff → LocalsState n m →
      List (Fin numOff × LocalsState n m)) :
    ∀ (k : Nat) (c : AnalysisConfig n m numOff), measureConfig c ≤ k →
      ((stepConfig transfer)^[k] c).worklist = [] := by
  intro k
  induction k with
  | zero =>
      intro c hc
      have hlen : c.worklist.length ≤ measureConfig c := Nat.le_add_left _ _
      have : c.worklist.length = 0 := by omega
      simpa [Function.iterate_zero_apply] using List.length_eq_zero.mp this
  | succ k ih =>
      intro c hc
      by_cases hw : c.worklist = []
      · rw [stepConfig_iterate_fixed transfer c hw]
        exact hw
      · rw [Function.iterate_succ_apply]
        refine ih (stepConfig transfer c) ?_
        have := stepConfig_measure_lt transfer c hw
        omega

/-- C4: the fixed-point analysis terminates on every finite instruction
stream: an offset is re-enqueued only when its merged recorded state changed
(processSucc leaves the pair untouched when the merge is a no-op), and for
every transfer function and every starting configuration the worklist loop
reaches an empty worklist — a fixed point — within measureConfig c
iterations, because states come from a finite-height lattice and merging only
widens. -/
theorem claim_C4_interpret_terminates {n m numOff : Nat}
    (transfer : Fin numOff → LocalsState n m →
      List (Fin numOff × LocalsState n m))
    (c : AnalysisConfig n m numOff) :
    (∀ (sp : (Fin numOff → LocalsState n m) × List (Fin numOff))
        (item : Fin numOff × LocalsState n m),
      mergeStates (sp.1 item.1) item.2 = sp.1 item.1 →
        processSucc sp item = sp) ∧
    ((stepConfig transfer)^[measureConfig c] c).worklist = [] := by
  constructor
  · intro sp item h
    unfold processSucc
    rw [if_pos h]
  · exact iterate_reaches_empty transfer (measureConfig c) c (le_refl _)

/-- Trivial states for the C4 witness (no locals, no source tags). -/
def trivialStates : Fin 1 → LocalsState 0 0 := fun _ => fun i => i.elim0

/-- One-offset configuration for the C4 witness with a pending offset. -/
def trivialConfig : AnalysisConfig 0 0 1 where
  states := trivialStates
  worklist := [0]

/-- Witness for C4 at a concrete configuration: a no-op merge does not requeue
and the one-offset self-loop analysis reaches the empty worklist. -/
theorem claim_C4_interpret_terminates_witness :
    processSucc (trivialStates, ([] : List (Fin 1))) (0, trivialStates 0) =
        (trivialStates, []) ∧
    ((stepConfig (fun _ s => [(0, s)]))^[measureConfig trivialConfig]
        trivialConfig).worklist = [] :=
  ⟨(claim_C4_interpret_terminates (fun _ s => [(0, s)]) trivialConfig).1
      (trivialStates, []) (0, trivialStates 0)
      (by funext i; exact i.elim0),
    (claim_C4_interpret_terminates (fun _ s => [(0, s)]) trivialConfig).2⟩
